import Mathlib

/-!
A shallow embedding of `regions_to_countries.py` (class `RegionConverter`),
together with proofs and refutations of the specified properties of its
resolution pipeline.

Strings are modelled as Lean `String` (a structure over `List Char`); the
string-rewriting helpers of the source are implemented on `List Char`.
Mutable object state (`__region_dict__`, `error_regions`, emitted warnings)
is threaded explicitly through a `St` structure, which carries an additional
ghost `trace` field recording which external lookups (geo table, manual
dictionary, remote service) were performed; the trace has no influence on
any computed value.  Exceptions are modelled with `Except`; the state is
returned alongside the error since the Python object survives a raised
exception.
-/

namespace RegionsToCountries

/-- Python whitespace characters: the exact set of code points for which
`str.isspace()` holds and which `str.rstrip()` strips — the ASCII
whitespace and separator controls (U+0009-U+000D, U+001C-U+001F, U+0020),
NEL (U+0085), NBSP (U+00A0), Ogham space (U+1680), the Unicode spaces
U+2000-U+200A, the line and paragraph separators U+2028-U+2029, and
U+202F, U+205F, U+3000. -/
def pyWS (c : Char) : Bool :=
  [9, 10, 11, 12, 13, 28, 29, 30, 31, 32, 133, 160, 5760,
   8192, 8193, 8194, 8195, 8196, 8197, 8198, 8199, 8200, 8201, 8202,
   8232, 8233, 8239, 8287, 12288].contains c.toNat

/-- Model of `re.sub(' +', ' ', s)`: collapse every run of spaces to a single space. -/
def collapseSpaces : List Char → List Char
  | [] => []
  | [c] => [c]
  | c :: d :: rest =>
    if c == ' ' && d == ' ' then collapseSpaces (d :: rest)
    else c :: collapseSpaces (d :: rest)

/-- Model of `str.rstrip()`: drop trailing whitespace. -/
def rstrip (l : List Char) : List Char :=
  (l.reverse.dropWhile pyWS).reverse

/-- Does `pat` occur in `hay` as a contiguous substring (Python `in` /
`str.replace` occurrence test)? -/
def containsSub (hay pat : List Char) : Bool :=
  pat.isPrefixOf hay ||
    match hay with
    | [] => false
    | _ :: t => containsSub t pat

/-- Fuel-indexed scanner for `str.replace(pat, "")`: removes the leftmost
occurrence of `pat`, continues after it, never re-examining characters that
were already emitted (Python's non-overlapping left-to-right semantics).
The guard on `pat` being nonempty is harmless here: the patterns used by the
source are the fixed, nonempty suffix words.  Fuel equal to the length of
the scanned list always suffices, since each consumed occurrence is
nonempty. -/
def replaceAllAux (pat : List Char) : Nat → List Char → List Char
  | 0, l => l
  | _ + 1, [] => []
  | fuel + 1, c :: cs =>
    if !pat.isEmpty && pat.isPrefixOf (c :: cs) then
      replaceAllAux pat fuel (List.drop pat.length (c :: cs))
    else
      c :: replaceAllAux pat fuel cs

/-- Model of `s.replace(pat, "")`. -/
def replaceAll (pat l : List Char) : List Char :=
  replaceAllAux pat l.length l

/-- The list `self.suffixes` (source line 83), in source order. -/
def suffixes : List String :=
  ["Province", "Region", "District", "State", "Governate", "Department",
   "Oblast", "City", "Zone", "Prefecture"]

/-- The suffix words as character lists. -/
def suffixesL : List (List Char) := suffixes.map String.data

/-- Core of `__remove_suffix__` on character lists: delete every occurrence of each
suffix word in order, collapse repeated spaces, strip trailing whitespace. -/
def removeSuffixL (l : List Char) : List Char :=
  rstrip (collapseSpaces (suffixesL.foldl (fun acc pat => replaceAll pat acc) l))

/-- Model of `__remove_suffix__` (source lines 186-190). -/
def removeSuffix (s : String) : String :=
  ⟨removeSuffixL s.data⟩

/-- Body of the parenthetical regex `\([^)]+\)` after the opening paren:
at least one non-`)` character followed by `)`.  Returns the remainder
after the closing paren on success. -/
def parenBody (l : List Char) : Option (List Char) :=
  let body := l.takeWhile (fun c => c != ')')
  if body.isEmpty then none
  else
    match l.drop body.length with
    | ')' :: rest => some rest
    | _ => none

/-- Attempt to match `" ?\([^)]+\)"` at the start of `l`; on success return
the remainder after the match.  (If the optional space is present but the
rest fails, the space-less alternative also fails at the same position,
since the position then holds a space rather than `(`.) -/
def tryParen : List Char → Option (List Char)
  | ' ' :: '(' :: rest => parenBody rest
  | '(' :: rest => parenBody rest
  | _ => none

/-- Fuel-indexed scanner for `re.sub(r" ?\([^)]+\)", "", s)`; every match
consumes at least three characters, so fuel equal to the input length
suffices. -/
def removeParensAux : Nat → List Char → List Char
  | 0, l => l
  | _ + 1, [] => []
  | fuel + 1, c :: cs =>
    match tryParen (c :: cs) with
    | some rest => removeParensAux fuel rest
    | none => c :: removeParensAux fuel cs

/-- Model of `__remove_parens__` (source lines 183-184). -/
def removeParens (s : String) : String :=
  ⟨removeParensAux s.data.length s.data⟩


/-- Observable resolution record `(corrected_name, country_name, iso_code)`;
`none` models both Python `None` and a pandas missing value. -/
abbrev ResolutionRecord := Option String × Option String × Option String

/-- One row of the reference geo table after `__open_geos__`: the value of
the `name` column, the values of the remaining name-bearing columns
(`__geocols__` minus `name`; column order is irrelevant to every use), the
`country_name` obtained by the left join with the ISO table (hence possibly
missing), and the `iso_a2` code. -/
structure GeoRow where
  name : Option String
  altNames : List (Option String)
  country_name : Option String
  iso_a2 : Option String
deriving DecidableEq

/-- All name-bearing columns of a row, as iterated by `__geocols__`. -/
def nameCols (r : GeoRow) : List (Option String) := r.name :: r.altNames

/-- Test from line 226 of the source, `df[c].str.contains(q, na=False)`:
does some name column of the row contain `q` as a substring?  A missing
value never matches.  (pandas interprets the pattern as a regular
expression; on the plain region names at issue this coincides with
substring containment, which is how the containment test is modelled.) -/
def rowContainsQ (q : String) (r : GeoRow) : Bool :=
  (nameCols r).any fun c =>
    match c with
    | some v => containsSub v.data q.data
    | none => false

/-- Test from line 232 of the source, `matched[c] == region`: does some name
column equal `q` exactly?  A missing value never equals a string. -/
def rowExactQ (q : String) (r : GeoRow) : Bool :=
  (nameCols r).any fun c => c == some q

/-- An in-memory region dictionary (`__region_dict__`): an ordered
association list with unique keys, matching Python `dict` insertion
semantics. -/
abbrev RegionDict := List (String × ResolutionRecord)

/-- Dictionary lookup, `d.get(k)`. -/
def dictGet : RegionDict → String → Option ResolutionRecord
  | [], _ => none
  | p :: d, k => if p.1 == k then some p.2 else dictGet d k

/-- Dictionary update, `d[k] = v`: replaces the value at an existing key in
place, else appends a new binding. -/
def dictSet : RegionDict → String → ResolutionRecord → RegionDict
  | [], k, v => [(k, v)]
  | p :: d, k, v => if p.1 == k then (k, v) :: d else p :: dictSet d k v

/-- Ghost event noting one external lookup: a scan of the geo table, a read
of the manual dictionary, or one HTTP request to the remote service. -/
inductive Ev
  | geo (q : String)
  | manual (q : String)
  | api (q : String)
deriving DecidableEq

/-- Mutable state of a `RegionConverter` during a session: the region
dictionary, the `error_regions` list, the warnings emitted so far, and the
ghost trace of external lookups. -/
structure St where
  dict : RegionDict
  errors : List String
  warnings : List String
  trace : List Ev
deriving DecidableEq

/-- One candidate returned by the remote location-search service
(`data[i]` of the JSON payload). -/
structure Candidate where
  name : String
  country_name : String
  country_code : String
deriving DecidableEq

/-- Response of one request to the remote service: either a non-success
HTTP status with the response text (raised as an exception by
`__connect_to_endpoint__`, lines 174-181) or the candidate list. -/
abbrev ApiResponse := Except (Nat × String) (List Candidate)

deriving instance DecidableEq for Except

/-- Read-only configuration of a `RegionConverter`: the
`warn_region_mismatch` level, the geo table, the manual dictionary (keys
already present in the cache were dropped at load time), and the remote
service itself, modelled as a function from query to response. -/
structure Config where
  warn_region_mismatch : Nat
  geos : List GeoRow
  manual_dict : String → Option (String × String × String)
  svc : String → ApiResponse

/-- Model of `region_to_country_from_geo` (source lines 218-244).  Strips
suffixes from the query, collects the rows some name column of which
contains the stripped query, and on ambiguity attempts to narrow by exact
equality with the original query — twice with the same test, exactly as the
source does.  The first row of the resulting set supplies the record, which
is written into the dictionary under the original query. -/
def region_to_country_from_geo (geos : List GeoRow) (region : String) (σ : St) :
    Option ResolutionRecord × St :=
  let σg : St := {σ with trace := σ.trace ++ [Ev.geo region]}
  let corrected := removeSuffix region
  match geos.filter (fun r => rowContainsQ corrected r) with
  | [] => (none, σg)
  | m :: ms =>
    let matched := m :: ms
    let chosen :=
      if matched.length > 1 then
        let exact1 := matched.filter (fun r => rowExactQ region r)
        if exact1.isEmpty then
          let exact2 := matched.filter (fun r => rowExactQ region r)
          if exact2.isEmpty then matched else exact2
        else exact1
      else matched
    let row := chosen.headD m
    let result : ResolutionRecord := (row.name, row.country_name, row.iso_a2)
    (some result, {σg with dict := dictSet σg.dict region result})

/-- Fuel-indexed model of `region_to_country_from_API` (source lines
192-216).  One request per level; a non-success status propagates as an
error; a nonempty candidate list yields the first candidate, which is
written into the dictionary under the query of this level; an empty list
retries on the suffix-stripped query when stripping changed it.  Each retry
strictly shortens the query, so fuel `region.length + 1` is never
exhausted. -/
def region_to_country_from_API_aux (svc : String → ApiResponse) :
    Nat → String → St → Except (Nat × String) (Option (String × String × String)) × St
  | 0, _, σ => (Except.ok none, σ)
  | fuel + 1, region, σ =>
    let σa : St := {σ with trace := σ.trace ++ [Ev.api region]}
    match svc region with
    | Except.error e => (Except.error e, σa)
    | Except.ok data =>
      match data with
      | c :: _ =>
        let written : ResolutionRecord := (some c.name, some c.country_name, some c.country_code)
        (Except.ok (some (c.name, c.country_name, c.country_code)),
         {σa with dict := dictSet σa.dict region written})
      | [] =>
        let region_drop_suffix := removeSuffix region
        if region_drop_suffix ≠ region then
          region_to_country_from_API_aux svc fuel region_drop_suffix σa
        else
          (Except.ok none, σa)

/-- Model of `region_to_country_from_API` at its standard fuel. -/
def region_to_country_from_API (svc : String → ApiResponse) (region : String) (σ : St) :
    Except (Nat × String) (Option (String × String × String)) × St :=
  region_to_country_from_API_aux svc (region.length + 1) region σ

/-- Stage 5 of `region_to_country` (source lines 287-307): record the
region as an error region, warn when enabled, and cache a degraded record
from the retained manual or remote result (country and ISO only, no
corrected name), or an all-absent record when neither exists. -/
def region_to_country_degrade (cfg : Config) (region : String)
    (manual_tuple facebook_tuple : Option (String × String × String)) (σ5 : St) :
    Except (Nat × String) ResolutionRecord × St :=
  let σ6 : St := {σ5 with errors := σ5.errors ++ [region]}
  let σ7 : St :=
    if cfg.warn_region_mismatch ≠ 0 then
      {σ6 with warnings :=
        σ6.warnings ++ ["Region " ++ region ++ " will not match geo dataframe!"]}
    else σ6
  match manual_tuple with
  | some mt =>
    let out : ResolutionRecord := (none, some mt.2.1, some mt.2.2)
    (Except.ok out, {σ7 with dict := dictSet σ7.dict region out})
  | none =>
    match facebook_tuple with
    | some ft =>
      let out : ResolutionRecord := (none, some ft.2.1, some ft.2.2)
      (Except.ok out, {σ7 with dict := dictSet σ7.dict region out})
    | none =>
      let σ8 : St :=
        if cfg.warn_region_mismatch ≠ 0 then
          {σ7 with warnings :=
            σ7.warnings ++ ["Region " ++ region ++ " not found anywhere!"]}
        else σ7
      (Except.ok (none, none, none),
       {σ8 with dict := dictSet σ8.dict region (none, none, none)})

/-- Stage 4 of `region_to_country` (source lines 279-285) followed by the
degrade stage: query the remote service, re-validate a returned candidate
against the geo table, and degrade on failure. -/
def region_to_country_tail (cfg : Config) (region : String)
    (manual_tuple : Option (String × String × String)) (σ3 : St) :
    Except (Nat × String) ResolutionRecord × St :=
  match region_to_country_from_API cfg.svc region σ3 with
  | (Except.error e, σ4) => (Except.error e, σ4)
  | (Except.ok facebook_tuple, σ4) =>
    match (match facebook_tuple with
           | some ft => region_to_country_from_geo cfg.geos ft.1 σ4
           | none => (none, σ4)) with
    | (some country_tuple, σ5) => (Except.ok country_tuple, σ5)
    | (none, σ5) => region_to_country_degrade cfg region manual_tuple facebook_tuple σ5

/-- Model of `region_to_country` (source lines 246-307), the five-attempt
cascade: parenthetical stripping, cache lookup, direct geo lookup, manual
dictionary then geo, then the remote-service and degrade stages of
`region_to_country_tail`. -/
def region_to_country (cfg : Config) (region0 : String) (σ0 : St) :
    Except (Nat × String) ResolutionRecord × St :=
  let region := removeParens region0
  match dictGet σ0.dict region with
  | some country_tuple => (Except.ok country_tuple, σ0)
  | none =>
  match region_to_country_from_geo cfg.geos region σ0 with
  | (some country_tuple, σ1) => (Except.ok country_tuple, σ1)
  | (none, σ1) =>
  let σ2 : St := {σ1 with trace := σ1.trace ++ [Ev.manual region]}
  let manual_tuple := cfg.manual_dict region
  match (match manual_tuple with
         | some mt =>
           if mt.1 ≠ "" then region_to_country_from_geo cfg.geos mt.1 σ2 else (none, σ2)
         | none => (none, σ2)) with
  | (some country_tuple, σ3) => (Except.ok country_tuple, σ3)
  | (none, σ3) => region_to_country_tail cfg region manual_tuple σ3

/-- A session fragment: apply `region_to_country` to each query in turn,
keeping only the evolving state. -/
def run_calls (cfg : Config) (regions : List String) (σ : St) : St :=
  regions.foldl (fun σc r => (region_to_country cfg r σc).2) σ

/-- The empty starting state of a session. -/
def emptySt : St := ⟨[], [], [], []⟩


/-! ### Dictionary lemmas -/

theorem dictGet_dictSet (d : RegionDict) (k k2 : String) (v : ResolutionRecord) :
    dictGet (dictSet d k v) k2 = if k2 = k then some v else dictGet d k2 := by
  induction d with
  | nil =>
    simp only [dictSet, dictGet, beq_iff_eq]
    by_cases h : k2 = k
    · simp [h]
    · rw [if_neg (fun hh => h hh.symm), if_neg h]
  | cons p d ih =>
    simp only [dictSet, dictGet, beq_iff_eq]
    by_cases h1 : p.1 = k
    · simp only [h1, if_pos rfl, dictGet, beq_iff_eq]
      by_cases h2 : k2 = k
      · simp [h2]
      · have hp : ¬ p.1 = k2 := fun hp => h2 (hp.symm.trans h1)
        simp [h2, hp, (show ¬ k = k2 from fun hh => h2 hh.symm)]
    · rw [if_neg h1]
      simp only [dictGet, beq_iff_eq, ih]
      by_cases h2 : p.1 = k2
      · have : ¬ k2 = k := fun hk => h1 (hk ▸ h2)
        simp [h2, this]
      · simp [h2]

theorem dictGet_dictSet_isSome (d : RegionDict) (k k2 : String) (v : ResolutionRecord)
    (h : (dictGet d k2).isSome = true) :
    (dictGet (dictSet d k v) k2).isSome = true := by
  rw [dictGet_dictSet]
  by_cases hk : k2 = k <;> simp [hk, h]

/-! ### Length lemmas for the string normalizers -/

theorem replaceAllAux_length_le (pat : List Char) :
    ∀ fuel l, (replaceAllAux pat fuel l).length ≤ l.length := by
  intro fuel
  induction fuel with
  | zero => intro l; simp [replaceAllAux]
  | succ fuel ih =>
    intro l
    match l with
    | [] => simp [replaceAllAux]
    | c :: cs =>
      by_cases hg : (!pat.isEmpty && pat.isPrefixOf (c :: cs)) = true
      · rw [replaceAllAux, if_pos hg]
        exact le_trans (ih _) (by simp [List.length_drop])
      · rw [replaceAllAux, if_neg hg]
        simpa using ih cs

theorem replaceAllAux_length_lt (pat : List Char) :
    ∀ fuel l, replaceAllAux pat fuel l ≠ l → (replaceAllAux pat fuel l).length < l.length := by
  intro fuel
  induction fuel with
  | zero => intro l h; exact absurd rfl h
  | succ fuel ih =>
    intro l h
    match l with
    | [] => exact absurd rfl h
    | c :: cs =>
      by_cases hg : (!pat.isEmpty && pat.isPrefixOf (c :: cs)) = true
      · rw [replaceAllAux, if_pos hg] at h ⊢
        have hpos : 0 < pat.length := by
          cases pat with
          | nil => simp at hg
          | cons a as => simp
        calc (replaceAllAux pat fuel (List.drop pat.length (c :: cs))).length
            ≤ (List.drop pat.length (c :: cs)).length := replaceAllAux_length_le pat fuel _
          _ = (c :: cs).length - pat.length := by simp [List.length_drop]
          _ < (c :: cs).length := by simp; omega
      · rw [replaceAllAux, if_neg hg] at h ⊢
        have hne : replaceAllAux pat fuel cs ≠ cs := by
          intro hc
          exact h (by rw [hc])
        simpa using Nat.succ_lt_succ (ih cs hne)

theorem replaceAll_length_le (pat l : List Char) : (replaceAll pat l).length ≤ l.length :=
  replaceAllAux_length_le pat l.length l

theorem replaceAll_length_lt (pat l : List Char) (h : replaceAll pat l ≠ l) :
    (replaceAll pat l).length < l.length :=
  replaceAllAux_length_lt pat l.length l h

theorem collapseSpaces_length_le : ∀ l : List Char, (collapseSpaces l).length ≤ l.length
  | [] => by simp [collapseSpaces]
  | [c] => by simp [collapseSpaces]
  | c :: d :: rest => by
    simp only [collapseSpaces]
    split
    · exact le_trans (collapseSpaces_length_le (d :: rest)) (by simp)
    · simpa using collapseSpaces_length_le (d :: rest)

theorem collapseSpaces_length_lt :
    ∀ l : List Char, collapseSpaces l ≠ l → (collapseSpaces l).length < l.length
  | [] => by intro h; exact absurd rfl h
  | [c] => by intro h; simp [collapseSpaces] at h
  | c :: d :: rest => by
    intro h
    by_cases hg : (c == ' ' && d == ' ') = true
    · rw [collapseSpaces, if_pos hg]
      exact lt_of_le_of_lt (collapseSpaces_length_le (d :: rest)) (by simp)
    · rw [collapseSpaces, if_neg hg] at h ⊢
      have hne : collapseSpaces (d :: rest) ≠ d :: rest := by
        intro hc
        exact h (by rw [hc])
      simpa using Nat.succ_lt_succ (collapseSpaces_length_lt (d :: rest) hne)

theorem dropWhile_length_le (p : Char → Bool) : ∀ l : List Char, (l.dropWhile p).length ≤ l.length
  | [] => by simp
  | c :: cs => by
    by_cases hc : p c
    · simp only [List.dropWhile, hc]
      exact le_trans (dropWhile_length_le p cs) (by simp)
    · simp [List.dropWhile, hc]

theorem dropWhile_length_lt (p : Char → Bool) :
    ∀ l : List Char, l.dropWhile p ≠ l → (l.dropWhile p).length < l.length
  | [] => by intro h; simp at h
  | c :: cs => by
    intro h
    by_cases hc : p c
    · simp only [List.dropWhile, hc]
      exact lt_of_le_of_lt (dropWhile_length_le p cs) (by simp)
    · simp [List.dropWhile, hc] at h

theorem rstrip_length_le (l : List Char) : (rstrip l).length ≤ l.length := by
  simp only [rstrip, List.length_reverse]
  simpa using dropWhile_length_le pyWS l.reverse

theorem rstrip_length_lt (l : List Char) (h : rstrip l ≠ l) : (rstrip l).length < l.length := by
  have hne : l.reverse.dropWhile pyWS ≠ l.reverse := by
    intro he
    apply h
    simp [rstrip, he]
  have := dropWhile_length_lt pyWS l.reverse hne
  simpa [rstrip] using this

theorem foldl_replaceAll_length_le (pats : List (List Char)) :
    ∀ l : List Char, ((pats.foldl (fun acc pat => replaceAll pat acc) l)).length ≤ l.length := by
  induction pats with
  | nil => intro l; simp
  | cons p ps ih =>
    intro l
    simp only [List.foldl_cons]
    exact le_trans (ih (replaceAll p l)) (replaceAll_length_le p l)

theorem foldl_replaceAll_length_lt (pats : List (List Char)) :
    ∀ l : List Char, (pats.foldl (fun acc pat => replaceAll pat acc) l) ≠ l →
      ((pats.foldl (fun acc pat => replaceAll pat acc) l)).length < l.length := by
  induction pats with
  | nil => intro l h; exact absurd rfl h
  | cons p ps ih =>
    intro l h
    simp only [List.foldl_cons] at h ⊢
    by_cases hp : replaceAll p l = l
    · rw [hp] at h ⊢
      exact ih l h
    · exact lt_of_le_of_lt (foldl_replaceAll_length_le ps (replaceAll p l))
        (replaceAll_length_lt p l hp)

theorem removeSuffixL_length_le (l : List Char) : (removeSuffixL l).length ≤ l.length := by
  simp only [removeSuffixL]
  exact le_trans (rstrip_length_le _)
    (le_trans (collapseSpaces_length_le _) (foldl_replaceAll_length_le suffixesL l))

theorem removeSuffixL_length_lt (l : List Char) (h : removeSuffixL l ≠ l) :
    (removeSuffixL l).length < l.length := by
  simp only [removeSuffixL] at h ⊢
  set a := suffixesL.foldl (fun acc pat => replaceAll pat acc) l with ha
  by_cases h1 : a = l
  · rw [h1] at h ⊢
    by_cases h2 : collapseSpaces l = l
    · rw [h2] at h ⊢
      exact rstrip_length_lt l h
    · exact lt_of_le_of_lt (rstrip_length_le _) (collapseSpaces_length_lt l h2)
  · exact lt_of_le_of_lt (rstrip_length_le _)
      (lt_of_le_of_lt (collapseSpaces_length_le _) (foldl_replaceAll_length_lt suffixesL l h1))

theorem removeSuffix_length_lt (s : String) (h : removeSuffix s ≠ s) :
    (removeSuffix s).length < s.length := by
  obtain ⟨l⟩ := s
  have hd : removeSuffixL l ≠ l := by
    intro he
    apply h
    show String.mk (removeSuffixL (String.mk l).data) = String.mk l
    rw [show (String.mk l).data = l from rfl, he]
  have hlt := removeSuffixL_length_lt l hd
  show (String.mk (removeSuffixL (String.mk l).data)).length < (String.mk l).length
  rw [String.length_mk, String.length_mk, show (String.mk l).data = l from rfl]
  exact hlt


/-! ### Identity and cleanliness lemmas for the normalizer -/

/-- Does the character list contain two adjacent spaces (so that
`re.sub(' +', ' ')` would shrink it)? -/
def hasDoubleSpace : List Char → Bool
  | c :: d :: rest => (c == ' ' && d == ' ') || hasDoubleSpace (d :: rest)
  | _ => false

/-- Does the character list end in Python whitespace (so that `rstrip`
would shrink it)? -/
def endsWithWS (l : List Char) : Bool :=
  match l.reverse with
  | [] => false
  | c :: _ => pyWS c

theorem replaceAllAux_eq_self (pat : List Char) :
    ∀ fuel l, containsSub l pat = false → replaceAllAux pat fuel l = l := by
  intro fuel
  induction fuel with
  | zero => intro l _; rfl
  | succ fuel ih =>
    intro l h
    match l with
    | [] => rfl
    | c :: cs =>
      have h2 : pat.isPrefixOf (c :: cs) = false ∧ containsSub cs pat = false := by
        simpa [containsSub, Bool.or_eq_false_iff] using h
      rw [replaceAllAux, if_neg (by simp [h2.1]), ih cs h2.2]

theorem replaceAll_eq_self (pat l : List Char) (h : containsSub l pat = false) :
    replaceAll pat l = l :=
  replaceAllAux_eq_self pat l.length l h

theorem foldl_replaceAll_eq_self (pats : List (List Char)) (l : List Char) :
    (∀ pat ∈ pats, containsSub l pat = false) →
    pats.foldl (fun acc pat => replaceAll pat acc) l = l := by
  induction pats with
  | nil => intro _; rfl
  | cons p ps ih =>
    intro h
    simp only [List.foldl_cons]
    rw [replaceAll_eq_self p l (h p (by simp))]
    exact ih (fun pat hm => h pat (by simp [hm]))

theorem collapseSpaces_eq_self : ∀ l : List Char, hasDoubleSpace l = false → collapseSpaces l = l
  | [], _ => rfl
  | [c], _ => rfl
  | c :: d :: rest, h => by
    simp only [hasDoubleSpace, Bool.or_eq_false_iff] at h
    rw [collapseSpaces, if_neg (by simp [h.1]), collapseSpaces_eq_self (d :: rest) h.2]

theorem collapseSpaces_head : ∀ (d : Char) (r : List Char), ∃ t, collapseSpaces (d :: r) = d :: t
  | _, [] => ⟨[], rfl⟩
  | d, e :: r => by
    by_cases hg : (d == ' ' && e == ' ') = true
    · obtain ⟨t, ht⟩ := collapseSpaces_head e r
      have hd : d = ' ' := by
        have := (Bool.and_eq_true_iff.mp hg).1
        simpa [beq_iff_eq] using this
      have he : e = ' ' := by
        have := (Bool.and_eq_true_iff.mp hg).2
        simpa [beq_iff_eq] using this
      refine ⟨t, ?_⟩
      rw [collapseSpaces, if_pos hg, ht, hd, he]
    · exact ⟨collapseSpaces (e :: r), by rw [collapseSpaces, if_neg hg]⟩

theorem hasDoubleSpace_collapseSpaces : ∀ l : List Char, hasDoubleSpace (collapseSpaces l) = false
  | [] => rfl
  | [c] => rfl
  | c :: d :: rest => by
    by_cases hg : (c == ' ' && d == ' ') = true
    · rw [collapseSpaces, if_pos hg]
      exact hasDoubleSpace_collapseSpaces (d :: rest)
    · rw [collapseSpaces, if_neg hg]
      obtain ⟨t, ht⟩ := collapseSpaces_head d rest
      rw [ht]
      simp only [hasDoubleSpace, Bool.or_eq_false_iff]
      refine ⟨by simpa using hg, ?_⟩
      rw [← ht]
      exact hasDoubleSpace_collapseSpaces (d :: rest)

theorem hasDoubleSpace_append_left :
    ∀ t u : List Char, hasDoubleSpace (t ++ u) = false → hasDoubleSpace t = false
  | [], _, _ => rfl
  | [c], _, _ => rfl
  | c :: d :: rest, u, h => by
    simp only [List.cons_append, hasDoubleSpace, Bool.or_eq_false_iff] at h ⊢
    exact ⟨h.1, hasDoubleSpace_append_left (d :: rest) u h.2⟩

theorem dropWhile_head_not (p : Char → Bool) :
    ∀ l : List Char, l.dropWhile p = [] ∨ ∃ c t, l.dropWhile p = c :: t ∧ p c = false
  | [] => Or.inl rfl
  | c :: cs => by
    cases hc : p c with
    | true => simpa [List.dropWhile, hc] using dropWhile_head_not p cs
    | false => exact Or.inr ⟨c, cs, by simp [List.dropWhile, hc], hc⟩

theorem rstrip_eq_self (l : List Char) (h : endsWithWS l = false) : rstrip l = l := by
  cases hr : l.reverse with
  | nil =>
    have hl : l = [] := by rwa [List.reverse_eq_nil_iff] at hr
    simp [rstrip, hl]
  | cons c t =>
    have hc : pyWS c = false := by
      have := h
      rw [endsWithWS, hr] at this
      exact this
    have hdrop : (c :: t).dropWhile pyWS = c :: t := by simp [List.dropWhile, hc]
    rw [rstrip, hr, hdrop, ← hr, List.reverse_reverse]

theorem endsWithWS_rstrip (l : List Char) : endsWithWS (rstrip l) = false := by
  rw [endsWithWS, rstrip, List.reverse_reverse]
  rcases dropWhile_head_not pyWS l.reverse with h | ⟨c, t, h, hc⟩
  · rw [h]
  · rw [h]
    exact hc

theorem rstrip_append (l : List Char) : ∃ u, l = rstrip l ++ u := by
  refine ⟨(l.reverse.takeWhile pyWS).reverse, ?_⟩
  conv_lhs => rw [← List.reverse_reverse l, ← List.takeWhile_append_dropWhile (p := pyWS) (l := l.reverse)]
  rw [List.reverse_append, rstrip]

theorem removeSuffixL_id_of_clean (l : List Char)
    (h1 : ∀ pat ∈ suffixesL, containsSub l pat = false)
    (h2 : hasDoubleSpace l = false) (h3 : endsWithWS l = false) :
    removeSuffixL l = l := by
  rw [removeSuffixL, foldl_replaceAll_eq_self suffixesL l h1, collapseSpaces_eq_self l h2,
    rstrip_eq_self l h3]

theorem hasDoubleSpace_removeSuffixL (l : List Char) :
    hasDoubleSpace (removeSuffixL l) = false := by
  rw [removeSuffixL]
  obtain ⟨u, hu⟩ :=
    rstrip_append (collapseSpaces (suffixesL.foldl (fun acc pat => replaceAll pat acc) l))
  have h := hasDoubleSpace_collapseSpaces (suffixesL.foldl (fun acc pat => replaceAll pat acc) l)
  rw [hu] at h
  exact hasDoubleSpace_append_left _ u h

theorem endsWithWS_removeSuffixL (l : List Char) : endsWithWS (removeSuffixL l) = false :=
  endsWithWS_rstrip _

theorem data_mk (l : List Char) : (String.mk l).data = l := rfl

theorem removeSuffix_mk (l : List Char) : removeSuffix (String.mk l) = String.mk (removeSuffixL l) := by
  show String.mk (removeSuffixL (String.mk l).data) = String.mk (removeSuffixL l)
  rw [data_mk]


/-! ### Claims C5, C6, C7: properties of the normalizer and the remote client -/

theorem suffix_occurs_all (l : List Char)
    (h : suffixes.all (fun suf => !(containsSub l suf.data)) = true) :
    ∀ pat ∈ suffixesL, containsSub l pat = false := by
  intro pat hm
  rw [suffixesL] at hm
  obtain ⟨suf, hsuf, rfl⟩ := List.mem_map.mp hm
  have := List.all_eq_true.mp h suf hsuf
  simpa using this

/-- C5 (amended): the suffix-stripping normalizer returns an input string
unchanged provided no suffix word occurs in it, it contains no two adjacent
spaces, and it does not end in whitespace.  (The claim as frozen omits the
last two conditions; `claim5_cex` shows they are needed, because the
normalizer unconditionally collapses space runs and strips trailing
whitespace.) -/
theorem claim5_remove_suffix_unchanged (s : String)
    (h1 : suffixes.all (fun suf => !(containsSub s.data suf.data)) = true)
    (h2 : hasDoubleSpace s.data = false)
    (h3 : endsWithWS s.data = false) :
    removeSuffix s = s := by
  obtain ⟨l⟩ := s
  rw [removeSuffix_mk]
  rw [removeSuffixL_id_of_clean l (suffix_occurs_all l h1) h2 h3]

/-- C5 witness: on `"Sindh"`, which satisfies all three conditions, the
normalizer is the identity. -/
theorem claim5_witness :
    suffixes.all (fun suf => !(containsSub ("Sindh").data suf.data)) = true ∧
    hasDoubleSpace ("Sindh").data = false ∧
    endsWithWS ("Sindh").data = false ∧
    removeSuffix "Sindh" = "Sindh" :=
  ⟨by decide, by decide, by decide,
    claim5_remove_suffix_unchanged "Sindh" (by decide) (by decide) (by decide)⟩

/-- C5 counterexample: no suffix word occurs in `"a  b"`, yet the
normalizer changes it (to `"a b"`), because space runs are collapsed
unconditionally.  This refutes the claim that absence of the suffix words
alone implies the input is returned completely unchanged. -/
theorem claim5_cex :
    suffixes.all (fun suf => !(containsSub ("a  b").data suf.data)) = true ∧
    removeSuffix "a  b" ≠ "a  b" :=
  ⟨by decide, by decide⟩

/-- C6 (amended): the normalizer is idempotent on every input whose
normalized form contains no suffix word.  (Unrestricted idempotence fails:
deleting suffix occurrences can concatenate the remaining fragments into a
new suffix word, see `claim6_cex`.) -/
theorem claim6_remove_suffix_idem (s : String)
    (h : suffixes.all (fun suf => !(containsSub (removeSuffix s).data suf.data)) = true) :
    removeSuffix (removeSuffix s) = removeSuffix s := by
  obtain ⟨l⟩ := s
  rw [removeSuffix_mk] at h ⊢
  rw [removeSuffix_mk]
  rw [data_mk] at h
  rw [removeSuffixL_id_of_clean (removeSuffixL l) (suffix_occurs_all _ h)
    (hasDoubleSpace_removeSuffixL l) (endsWithWS_removeSuffixL l)]

/-- C6 witness: `"Sindh Province"` normalizes to `"Sindh"`, which contains
no suffix word, and re-normalizing leaves it fixed. -/
theorem claim6_witness :
    suffixes.all (fun suf => !(containsSub (removeSuffix "Sindh Province").data suf.data)) = true ∧
    removeSuffix (removeSuffix "Sindh Province") = removeSuffix "Sindh Province" :=
  ⟨by decide, claim6_remove_suffix_idem "Sindh Province" (by decide)⟩

/-- C6 counterexample: on `"ProvProvinceince"` the first application
deletes the inner `"Province"` and the remaining fragments concatenate to
the new word `"Province"`, so the first application yields `"Province"`
and the second yields `""`: the normalizer is not idempotent. -/
theorem claim6_cex :
    removeSuffix (removeSuffix "ProvProvinceince") ≠ removeSuffix "ProvProvinceince" := by
  decide

theorem api_aux_empty_svc (fuel : Nat) : ∀ (q : String) (σ : St),
    (region_to_country_from_API_aux (fun _ => Except.ok []) fuel q σ).1 = Except.ok none := by
  induction fuel with
  | zero => intro q σ; rfl
  | succ fuel ih =>
    intro q σ
    rw [region_to_country_from_API_aux]
    by_cases h : removeSuffix q ≠ q
    · simp only [if_pos h]
      exact ih _ _
    · simp only [if_neg h]

/-- C7: the remote-search client terminates on every input: whenever
suffix stripping changes the query, it strictly shortens it (so the
recursion of `region_to_country_from_API` is well-founded and its fuel is
never exhausted), and against a service that always returns zero
candidates the client reaches its not-found base case on every query. -/
theorem claim7_api_terminates (s : String) (σ : St) :
    (removeSuffix s ≠ s → (removeSuffix s).length < s.length) ∧
    (region_to_country_from_API (fun _ => Except.ok []) s σ).1 = Except.ok none :=
  ⟨removeSuffix_length_lt s, api_aux_empty_svc (s.length + 1) s σ⟩

/-- C7 witness: on `"Sindh Province"` stripping changes the query and
shortens it, and the zero-candidate service drives the client to
not-found. -/
theorem claim7_witness :
    removeSuffix "Sindh Province" ≠ "Sindh Province" ∧
    (removeSuffix "Sindh Province").length < ("Sindh Province" : String).length ∧
    (region_to_country_from_API (fun _ => Except.ok []) "Sindh Province" emptySt).1 =
      Except.ok none :=
  ⟨by decide, (claim7_api_terminates "Sindh Province" emptySt).1 (by decide),
    (claim7_api_terminates "Sindh Province" emptySt).2⟩


/-! ### Claims C3 and C8: geo-table matcher -/

theorem geo_none (geos : List GeoRow) (region : String) (σ : St)
    (hm : geos.filter (fun r => rowContainsQ (removeSuffix region) r) = []) :
    region_to_country_from_geo geos region σ =
      (none, {σ with trace := σ.trace ++ [Ev.geo region]}) := by
  rw [region_to_country_from_geo, hm]

theorem geo_cons (geos : List GeoRow) (region : String) (σ : St) (m : GeoRow) (ms : List GeoRow)
    (hm : geos.filter (fun r => rowContainsQ (removeSuffix region) r) = m :: ms) :
    region_to_country_from_geo geos region σ =
      (some (((if (m :: ms).length > 1 then
                 (if ((m :: ms).filter (fun r => rowExactQ region r)).isEmpty then m :: ms
                  else (m :: ms).filter (fun r => rowExactQ region r))
               else m :: ms).headD m).name,
             ((if (m :: ms).length > 1 then
                 (if ((m :: ms).filter (fun r => rowExactQ region r)).isEmpty then m :: ms
                  else (m :: ms).filter (fun r => rowExactQ region r))
               else m :: ms).headD m).country_name,
             ((if (m :: ms).length > 1 then
                 (if ((m :: ms).filter (fun r => rowExactQ region r)).isEmpty then m :: ms
                  else (m :: ms).filter (fun r => rowExactQ region r))
               else m :: ms).headD m).iso_a2),
       {σ with trace := σ.trace ++ [Ev.geo region],
               dict := dictSet σ.dict region
                 (((if (m :: ms).length > 1 then
                      (if ((m :: ms).filter (fun r => rowExactQ region r)).isEmpty then m :: ms
                       else (m :: ms).filter (fun r => rowExactQ region r))
                    else m :: ms).headD m).name,
                  ((if (m :: ms).length > 1 then
                      (if ((m :: ms).filter (fun r => rowExactQ region r)).isEmpty then m :: ms
                       else (m :: ms).filter (fun r => rowExactQ region r))
                    else m :: ms).headD m).country_name,
                  ((if (m :: ms).length > 1 then
                      (if ((m :: ms).filter (fun r => rowExactQ region r)).isEmpty then m :: ms
                       else (m :: ms).filter (fun r => rowExactQ region r))
                    else m :: ms).headD m).iso_a2)}) := by
  rw [region_to_country_from_geo, hm]
  by_cases hlen : (m :: ms).length > 1
  · by_cases hex : ((m :: ms).filter (fun r => rowExactQ region r)).isEmpty = true
    · simp only [if_pos hlen, if_pos hex]
    · simp only [if_pos hlen, if_neg hex]
  · simp only [if_neg hlen]


theorem headD_mem {α : Type} (l : List α) (d : α) (P : α → Prop)
    (hl : ∀ x ∈ l, P x) (hd : P d) : P (l.headD d) := by
  cases l with
  | nil => exact hd
  | cons x xs => exact hl x (by simp)

/-- C3: whenever substring containment of the suffix-stripped query matches
more than one geo row, the matcher keeps exactly those matched rows having
a name column equal to the original un-normalized query if any exist, and
otherwise keeps the whole matched set (the source's second narrowing
attempt repeats the first test, so it never narrows further); the first
row of the resulting set supplies the returned name, country and ISO code,
and the record is cached under the original query. -/
theorem claim3_geo_narrowing (geos : List GeoRow) (region : String) (σ : St)
    (h : 1 < (geos.filter (fun r => rowContainsQ (removeSuffix region) r)).length) :
    region_to_country_from_geo geos region σ =
      (let matched := geos.filter (fun r => rowContainsQ (removeSuffix region) r)
       let exactRows := matched.filter (fun r => rowExactQ region r)
       let row := (if exactRows.isEmpty then matched else exactRows).headD
         { name := none, altNames := [], country_name := none, iso_a2 := none }
       (some (row.name, row.country_name, row.iso_a2),
        { σ with trace := σ.trace ++ [Ev.geo region],
                 dict := dictSet σ.dict region (row.name, row.country_name, row.iso_a2) })) := by
  rcases hm : geos.filter (fun r => rowContainsQ (removeSuffix region) r) with _ | ⟨m, ms⟩
  · rw [hm] at h
    simp at h
  · have hlen : (m :: ms).length > 1 := by
      rw [hm] at h
      exact h
    rw [geo_cons geos region σ m ms hm]
    simp only [hm, if_pos hlen]
    rcases he : (m :: ms).filter (fun r => rowExactQ region r) with _ | ⟨e, es⟩ <;>
      simp [he]

/-- C3 witness: with two rows matching the stripped query `"A"` and only
the second having a name column equal to the raw query, the matcher
narrows to and returns the second row's fields. -/
theorem claim3_witness :
    1 < (([{ name := some "Ab", altNames := [], country_name := some "C1", iso_a2 := some "I1" },
           { name := some "A", altNames := [], country_name := some "C2", iso_a2 := some "I2" }] :
          List GeoRow).filter (fun r => rowContainsQ (removeSuffix "A") r)).length ∧
    (region_to_country_from_geo
        [{ name := some "Ab", altNames := [], country_name := some "C1", iso_a2 := some "I1" },
         { name := some "A", altNames := [], country_name := some "C2", iso_a2 := some "I2" }]
        "A" emptySt).1 = some (some "A", some "C2", some "I2") := by
  refine ⟨by decide, ?_⟩
  rw [claim3_geo_narrowing _ "A" emptySt (by decide)]
  decide

/-- C8 counterexample: a geo row whose ISO code has no entry in the ISO
lookup (a left-join miss in `__open_geos__`) carries an absent
`country_name`; matching it produces and caches the record
`(some "X", none, some "ZZ")`, whose corrected name is present while its
country name is absent.  This refutes the claim that presence of
`corrected_name` implies presence of `country_name`. -/
theorem claim8_cex :
    (region_to_country_from_geo
       [{ name := some "X", altNames := [], country_name := none, iso_a2 := some "ZZ" }]
       "X" emptySt).1 = some (some "X", none, some "ZZ") ∧
    dictGet (region_to_country_from_geo
       [{ name := some "X", altNames := [], country_name := none, iso_a2 := some "ZZ" }]
       "X" emptySt).2.dict "X" = some (some "X", none, some "ZZ") ∧
    (some "X" : Option String).isSome = true ∧
    (none : Option String).isSome = false :=
  ⟨by decide, by decide, by decide, by decide⟩

/-- C8 (amended): every record the geo matcher produces (and caches under
the query) consists of the `name`, `country_name` and `iso_a2` fields of
one single geo row, so the record is consistent with the row that supplied
it; each field is present exactly when that row's field is, and an absent
row field (e.g. a country name lost by the left join with the ISO table)
yields an absent record field. -/
theorem claim8_geo_record_consistent (geos : List GeoRow) (region : String) (σ : St)
    (rec0 : ResolutionRecord) (σ2 : St)
    (h : region_to_country_from_geo geos region σ = (some rec0, σ2)) :
    ∃ row, row ∈ geos ∧ rec0 = (row.name, row.country_name, row.iso_a2) ∧
      dictGet σ2.dict region = some rec0 := by
  rcases hm : geos.filter (fun r => rowContainsQ (removeSuffix region) r) with _ | ⟨m, ms⟩
  · rw [geo_none geos region σ hm] at h
    simp at h
  · rw [geo_cons geos region σ m ms hm] at h
    set ch := (if (m :: ms).length > 1 then
        (if ((m :: ms).filter (fun r => rowExactQ region r)).isEmpty then m :: ms
         else (m :: ms).filter (fun r => rowExactQ region r))
      else m :: ms) with hch
    rw [Prod.mk.injEq] at h
    obtain ⟨h1, h2⟩ := h
    have hrec : rec0 = ((ch.headD m).name, (ch.headD m).country_name, (ch.headD m).iso_a2) :=
      (Option.some.inj h1).symm
    have hmem1 : ∀ x ∈ m :: ms, x ∈ geos := by
      intro x hx
      rw [← hm] at hx
      exact List.mem_of_mem_filter hx
    have hchm : ∀ x ∈ ch, x ∈ m :: ms := by
      intro x hx
      rw [hch] at hx
      split at hx
      · split at hx
        · exact hx
        · exact List.mem_of_mem_filter hx
      · exact hx
    have hrowmem : ch.headD m ∈ geos :=
      headD_mem ch m (fun x => x ∈ geos) (fun x hx => hmem1 x (hchm x hx)) (hmem1 m (by simp))
    refine ⟨ch.headD m, hrowmem, hrec, ?_⟩
    rw [← h2]
    show dictGet (dictSet σ.dict region _) region = some rec0
    rw [dictGet_dictSet, if_pos rfl, hrec]

/-- C8 witness: a successful single-row match produces exactly that row's
fields and caches them. -/
theorem claim8_witness :
    region_to_country_from_geo
      [{ name := some "Q", altNames := [], country_name := some "C", iso_a2 := some "I" }]
      "Q" emptySt =
      (some (some "Q", some "C", some "I"),
       ⟨[("Q", (some "Q", some "C", some "I"))], [], [], [Ev.geo "Q"]⟩) ∧
    ∃ row,
      row ∈ [({ name := some "Q", altNames := [], country_name := some "C", iso_a2 := some "I" } :
              GeoRow)] ∧
      ((some "Q", some "C", some "I") : ResolutionRecord) =
        (row.name, row.country_name, row.iso_a2) ∧
      dictGet ([("Q", (some "Q", some "C", some "I"))] : RegionDict) "Q" =
        some (some "Q", some "C", some "I") :=
  ⟨by decide,
    claim8_geo_record_consistent
      [{ name := some "Q", altNames := [], country_name := some "C", iso_a2 := some "I" }]
      "Q" emptySt (some "Q", some "C", some "I")
      ⟨[("Q", (some "Q", some "C", some "I"))], [], [], [Ev.geo "Q"]⟩ (by decide)⟩


/-! ### State lemmas for the cascade orchestrator -/

theorem geo_preserves (geos : List GeoRow) (region : String) (σ : St) :
    (region_to_country_from_geo geos region σ).2.errors = σ.errors ∧
    (region_to_country_from_geo geos region σ).2.warnings = σ.warnings := by
  rcases hm : geos.filter (fun r => rowContainsQ (removeSuffix region) r) with _ | ⟨m, ms⟩
  · rw [geo_none geos region σ hm]
    exact ⟨rfl, rfl⟩
  · rw [geo_cons geos region σ m ms hm]
    exact ⟨rfl, rfl⟩

theorem geo_none_dict (geos : List GeoRow) (region : String) (σ : St)
    (h : (region_to_country_from_geo geos region σ).1 = none) :
    (region_to_country_from_geo geos region σ).2.dict = σ.dict := by
  rcases hm : geos.filter (fun r => rowContainsQ (removeSuffix region) r) with _ | ⟨m, ms⟩
  · rw [geo_none geos region σ hm]
  · rw [geo_cons geos region σ m ms hm] at h
    simp at h

theorem geo_dict_mono (geos : List GeoRow) (region : String) (σ : St) (k : String)
    (h : (dictGet σ.dict k).isSome = true) :
    (dictGet (region_to_country_from_geo geos region σ).2.dict k).isSome = true := by
  rcases hm : geos.filter (fun r => rowContainsQ (removeSuffix region) r) with _ | ⟨m, ms⟩
  · rw [geo_none geos region σ hm]
    exact h
  · rw [geo_cons geos region σ m ms hm]
    exact dictGet_dictSet_isSome _ _ _ _ h

theorem api_aux_preserves (svc : String → ApiResponse) : ∀ (fuel : Nat) (q : String) (σ : St),
    (region_to_country_from_API_aux svc fuel q σ).2.errors = σ.errors ∧
    (region_to_country_from_API_aux svc fuel q σ).2.warnings = σ.warnings := by
  intro fuel
  induction fuel with
  | zero => intro q σ; exact ⟨rfl, rfl⟩
  | succ fuel ih =>
    intro q σ
    rw [region_to_country_from_API_aux]
    rcases hs : svc q with e | data
    · simp [hs]
    · simp only [hs]
      cases data with
      | nil =>
        by_cases hdrop : removeSuffix q ≠ q
        · simp only [if_pos hdrop]
          exact ih _ _
        · simp [if_neg hdrop]
      | cons c cs => simp

theorem api_aux_error (svc : String → ApiResponse) : ∀ (fuel : Nat) (q : String) (σ : St)
    (e : Nat × String) (σ2 : St),
    region_to_country_from_API_aux svc fuel q σ = (Except.error e, σ2) →
    σ2.dict = σ.dict ∧ σ2.errors = σ.errors ∧ σ2.warnings = σ.warnings := by
  intro fuel
  induction fuel with
  | zero =>
    intro q σ e σ2 h
    rw [region_to_country_from_API_aux] at h
    simp at h
  | succ fuel ih =>
    intro q σ e σ2 h
    rw [region_to_country_from_API_aux] at h
    rcases hs : svc q with e2 | data
    · rw [hs] at h
      simp only [Prod.mk.injEq] at h
      rw [← h.2]
      exact ⟨rfl, rfl, rfl⟩
    · rw [hs] at h
      cases data with
      | nil =>
        by_cases hdrop : removeSuffix q ≠ q
        · simp only [if_pos hdrop] at h
          obtain ⟨hd, he, hw⟩ := ih (removeSuffix q) _ e σ2 h
          exact ⟨hd, he, hw⟩
        · simp only [if_neg hdrop] at h
          simp at h
      | cons c cs => simp at h

theorem api_aux_dict_mono (svc : String → ApiResponse) : ∀ (fuel : Nat) (q : String) (σ : St)
    (k : String), (dictGet σ.dict k).isSome = true →
    (dictGet (region_to_country_from_API_aux svc fuel q σ).2.dict k).isSome = true := by
  intro fuel
  induction fuel with
  | zero => intro q σ k h; exact h
  | succ fuel ih =>
    intro q σ k h
    rw [region_to_country_from_API_aux]
    rcases hs : svc q with e | data
    · simp only [hs]
      exact h
    · simp only [hs]
      cases data with
      | nil =>
        by_cases hdrop : removeSuffix q ≠ q
        · simp only [if_pos hdrop]
          exact ih _ _ k h
        · simp only [if_neg hdrop]
          exact h
      | cons c cs => exact dictGet_dictSet_isSome _ _ _ _ h


theorem degrade_master (cfg : Config) (rq : String)
    (mT fT : Option (String × String × String)) (σ5 : St) :
    (∃ r, (region_to_country_degrade cfg rq mT fT σ5).1 = Except.ok r) ∧
    (∀ k, (dictGet σ5.dict k).isSome = true →
      (dictGet (region_to_country_degrade cfg rq mT fT σ5).2.dict k).isSome = true) := by
  rcases mT with _ | mt
  · rcases fT with _ | ft
    · by_cases hw : cfg.warn_region_mismatch ≠ 0 <;>
        simp only [region_to_country_degrade, if_pos hw, if_neg hw] <;>
        exact ⟨⟨(none, none, none), rfl⟩, fun k hk => dictGet_dictSet_isSome _ _ _ _ hk⟩
    · by_cases hw : cfg.warn_region_mismatch ≠ 0 <;>
        simp only [region_to_country_degrade, if_pos hw, if_neg hw] <;>
        exact ⟨⟨(none, some ft.2.1, some ft.2.2), rfl⟩,
          fun k hk => dictGet_dictSet_isSome _ _ _ _ hk⟩
  · by_cases hw : cfg.warn_region_mismatch ≠ 0 <;>
      simp only [region_to_country_degrade, if_pos hw, if_neg hw] <;>
      exact ⟨⟨(none, some mt.2.1, some mt.2.2), rfl⟩,
        fun k hk => dictGet_dictSet_isSome _ _ _ _ hk⟩

theorem tail_master (cfg : Config) (rq : String)
    (manualT : Option (String × String × String)) (σin : St) :
    (∀ k, (dictGet σin.dict k).isSome = true →
      (dictGet (region_to_country_tail cfg rq manualT σin).2.dict k).isSome = true) ∧
    (∀ e σ2, region_to_country_tail cfg rq manualT σin = (Except.error e, σ2) →
      σ2.dict = σin.dict ∧ σ2.errors = σin.errors ∧ σ2.warnings = σin.warnings) := by
  rw [region_to_country_tail]
  rcases ha : region_to_country_from_API cfg.svc rq σin with ⟨ares, σ4⟩
  have ha2 : region_to_country_from_API_aux cfg.svc (rq.length + 1) rq σin = (ares, σ4) := ha
  have hamono : ∀ k, (dictGet σin.dict k).isSome = true →
      (dictGet σ4.dict k).isSome = true := by
    intro k hk
    have h2 := api_aux_dict_mono cfg.svc (rq.length + 1) rq σin k hk
    rw [ha2] at h2
    exact h2
  rcases ares with e2 | fb
  · simp only [ha]
    refine ⟨fun k hk => hamono k hk, ?_⟩
    intro e σ2 h
    rw [Prod.mk.injEq] at h
    obtain ⟨hee, hσ⟩ := h
    rw [← hσ]
    exact api_aux_error cfg.svc (rq.length + 1) rq σin e2 σ4 ha2
  · rcases fb with _ | ft
    · -- remote service found nothing: degrade with no facebook tuple
      simp only [ha]
      obtain ⟨⟨r, hr⟩, hmono⟩ := degrade_master cfg rq manualT none σ4
      refine ⟨fun k hk => hmono k (hamono k hk), fun e σ2 h => ?_⟩
      rw [h] at hr
      simp at hr
    · -- candidate found: re-validate against the geo table
      simp only [ha]
      rcases hg : region_to_country_from_geo cfg.geos ft.1 σ4 with ⟨gres, σ5⟩
      rcases gres with _ | t
      · -- validation failed: degrade with the retained facebook tuple
        simp only [hg]
        have hgd : σ5.dict = σ4.dict := by
          have h3 := geo_none_dict cfg.geos ft.1 σ4 (by rw [hg])
          rw [hg] at h3
          exact h3
        obtain ⟨⟨r, hr⟩, hmono⟩ := degrade_master cfg rq manualT (some ft) σ5
        refine ⟨fun k hk => hmono k (by rw [hgd]; exact hamono k hk), fun e σ2 h => ?_⟩
        rw [h] at hr
        simp at hr
      · -- validated: return the geo record
        simp only [hg]
        refine ⟨fun k hk => ?_, fun e σ2 h => by simp at h⟩
        have h2 := geo_dict_mono cfg.geos ft.1 σ4 k (hamono k hk)
        rw [hg] at h2
        exact h2


theorem rtc_master (cfg : Config) (q : String) (σ : St) :
    (∀ k, (dictGet σ.dict k).isSome = true →
      (dictGet (region_to_country cfg q σ).2.dict k).isSome = true) ∧
    (∀ e σ2, region_to_country cfg q σ = (Except.error e, σ2) →
      σ2.dict = σ.dict ∧ σ2.errors = σ.errors ∧ σ2.warnings = σ.warnings) := by
  simp only [region_to_country]
  rcases h1 : dictGet σ.dict (removeParens q) with _ | t
  · simp only [h1]
    rcases hg : region_to_country_from_geo cfg.geos (removeParens q) σ with ⟨gres, σ1⟩
    rcases gres with _ | t
    · simp only [hg]
      have hgd : σ1.dict = σ.dict := by
        have h3 := geo_none_dict cfg.geos (removeParens q) σ (by rw [hg])
        rw [hg] at h3
        exact h3
      have hge : σ1.errors = σ.errors := by
        have h3 := (geo_preserves cfg.geos (removeParens q) σ).1
        rw [hg] at h3
        exact h3
      have hgw : σ1.warnings = σ.warnings := by
        have h3 := (geo_preserves cfg.geos (removeParens q) σ).2
        rw [hg] at h3
        exact h3
      rcases hmt : cfg.manual_dict (removeParens q) with _ | mt
      · simp only [hmt]
        obtain ⟨tmono, terr⟩ := tail_master cfg (removeParens q) none
          {σ1 with trace := σ1.trace ++ [Ev.manual (removeParens q)]}
        refine ⟨fun k hk => tmono k (by rw [← hgd] at hk; exact hk), fun e σ2 h => ?_⟩
        obtain ⟨d2, e2, w2⟩ := terr e σ2 h
        exact ⟨by rw [d2]; exact hgd, by rw [e2]; exact hge, by rw [w2]; exact hgw⟩
      · simp only [hmt]
        by_cases hne : mt.1 ≠ ""
        · simp only [if_pos hne]
          rcases hg2 : region_to_country_from_geo cfg.geos mt.1
              {σ1 with trace := σ1.trace ++ [Ev.manual (removeParens q)]} with ⟨g2res, σ3⟩
          rcases g2res with _ | t2
          · simp only [hg2]
            have h3d : σ3.dict = σ1.dict := by
              have h4 := geo_none_dict cfg.geos mt.1
                {σ1 with trace := σ1.trace ++ [Ev.manual (removeParens q)]} (by rw [hg2])
              rw [hg2] at h4
              exact h4
            have h3e : σ3.errors = σ1.errors := by
              have h4 := (geo_preserves cfg.geos mt.1
                {σ1 with trace := σ1.trace ++ [Ev.manual (removeParens q)]}).1
              rw [hg2] at h4
              exact h4
            have h3w : σ3.warnings = σ1.warnings := by
              have h4 := (geo_preserves cfg.geos mt.1
                {σ1 with trace := σ1.trace ++ [Ev.manual (removeParens q)]}).2
              rw [hg2] at h4
              exact h4
            obtain ⟨tmono, terr⟩ := tail_master cfg (removeParens q) (some mt) σ3
            refine ⟨fun k hk => tmono k (by rw [← hgd, ← h3d] at hk; exact hk), fun e σ2 h => ?_⟩
            obtain ⟨d2, e2, w2⟩ := terr e σ2 h
            exact ⟨by rw [d2, h3d]; exact hgd, by rw [e2, h3e]; exact hge,
              by rw [w2, h3w]; exact hgw⟩
          · simp only [hg2]
            refine ⟨fun k hk => ?_, fun e σ2 h => by simp at h⟩
            have h2 := geo_dict_mono cfg.geos mt.1
              {σ1 with trace := σ1.trace ++ [Ev.manual (removeParens q)]} k
              (by rw [← hgd] at hk; exact hk)
            rw [hg2] at h2
            exact h2
        · simp only [if_neg hne]
          obtain ⟨tmono, terr⟩ := tail_master cfg (removeParens q) (some mt)
            {σ1 with trace := σ1.trace ++ [Ev.manual (removeParens q)]}
          refine ⟨fun k hk => tmono k (by rw [← hgd] at hk; exact hk), fun e σ2 h => ?_⟩
          obtain ⟨d2, e2, w2⟩ := terr e σ2 h
          exact ⟨by rw [d2]; exact hgd, by rw [e2]; exact hge, by rw [w2]; exact hgw⟩
    · simp only [hg]
      refine ⟨fun k hk => ?_, fun e σ2 h => by simp at h⟩
      have h2 := geo_dict_mono cfg.geos (removeParens q) σ k hk
      rw [hg] at h2
      exact h2
  · simp only [h1]
    exact ⟨fun k hk => hk, fun e σ2 h => by simp at h⟩


/-! ### Claims C1, C2, C4: the cascade orchestrator -/

/-- C4: if the resolution of a region raises (which happens exactly when
the remote service answers with a non-success status during stage 4), the
exception propagates out of `region_to_country` immediately: the cache
table is exactly as before the call, no error region is recorded, and no
warning is emitted — the stage-5 degrade and error-region paths are not
taken.  (The ghost trace may still note the lookups performed before the
failure.) -/
theorem claim4_transport_failure (cfg : Config) (q : String) (σ : St) (e : Nat × String)
    (σ2 : St) (h : region_to_country cfg q σ = (Except.error e, σ2)) :
    σ2.dict = σ.dict ∧ σ2.errors = σ.errors ∧ σ2.warnings = σ.warnings :=
  (rtc_master cfg q σ).2 e σ2 h

/-- C4 witness: a service answering status 500 makes the resolution of
`"X"` raise, leaving the cache, error regions and warnings empty. -/
theorem claim4_witness :
    region_to_country
        ⟨1, [], fun _ => none, fun _ => Except.error (500, "boom")⟩ "X" emptySt =
      (Except.error (500, "boom"),
       ⟨[], [], [], [Ev.geo "X", Ev.manual "X", Ev.api "X"]⟩) ∧
    ((⟨[], [], [], [Ev.geo "X", Ev.manual "X", Ev.api "X"]⟩ : St).dict = emptySt.dict ∧
     (⟨[], [], [], [Ev.geo "X", Ev.manual "X", Ev.api "X"]⟩ : St).errors = emptySt.errors ∧
     (⟨[], [], [], [Ev.geo "X", Ev.manual "X", Ev.api "X"]⟩ : St).warnings = emptySt.warnings) :=
  ⟨by decide,
    claim4_transport_failure ⟨1, [], fun _ => none, fun _ => Except.error (500, "boom")⟩
      "X" emptySt (500, "boom") ⟨[], [], [], [Ev.geo "X", Ev.manual "X", Ev.api "X"]⟩
      (by decide)⟩

/-- C2 (amended): during a session the cache table's key set only grows:
over any sequence of `region_to_country` calls, a key that is bound in the
cache stays bound — no operation ever removes a key.  (The claim's further
assertion that a bound key is never rebound to a different record is false,
see `claim2_cex`: stage 5 overwrites the record that the remote-search
client had just cached under the same key when geo validation of the
remote candidate fails.) -/
theorem claim2_cache_grows (cfg : Config) (qs : List String) :
    ∀ (σ : St) (k : String), (dictGet σ.dict k).isSome = true →
      (dictGet (run_calls cfg qs σ).dict k).isSome = true := by
  induction qs with
  | nil => intro σ k h; exact h
  | cons q qs ih =>
    intro σ k h
    simp only [run_calls, List.foldl_cons]
    exact ih _ k ((rtc_master cfg q σ).1 k h)

/-- C2 witness: a key bound before a call is still bound after it. -/
theorem claim2_witness :
    (dictGet (⟨[("A", (none, none, none))], [], [], []⟩ : St).dict "A").isSome = true ∧
    (dictGet (run_calls ⟨1, [], fun _ => none, fun _ => Except.ok []⟩ ["B"]
        ⟨[("A", (none, none, none))], [], [], []⟩).dict "A").isSome = true :=
  ⟨by decide,
    claim2_cache_grows ⟨1, [], fun _ => none, fun _ => Except.ok []⟩ ["B"]
      ⟨[("A", (none, none, none))], [], [], []⟩ "A" (by decide)⟩

/-- C2 counterexample: resolving `"X"` against an empty geo table with a
remote service that returns the candidate `("Y", "C1", "I1")` first binds
`"X"` to the remote record `(some "Y", some "C1", some "I1")` (the write
performed inside `region_to_country_from_API`, shown here at the exact
intermediate state at which stage 4 invokes it), and then — geo validation
of `"Y"` having failed — stage 5 of the same call rebinds `"X"` to the
degraded record `(none, some "C1", some "I1")`.  A key was rebound to a
different record, refuting the no-overwrite half of the claim. -/
theorem claim2_cex :
    (region_to_country_from_API
        (fun q => if q = "X"
          then Except.ok [{ name := "Y", country_name := "C1", country_code := "I1" }]
          else Except.ok [])
        "X" ⟨[], [], [], [Ev.geo "X", Ev.manual "X"]⟩).2.dict =
      [("X", (some "Y", some "C1", some "I1"))] ∧
    (region_to_country
        ⟨1, [], fun _ => none,
         fun q => if q = "X"
          then Except.ok [{ name := "Y", country_name := "C1", country_code := "I1" }]
          else Except.ok []⟩
        "X" emptySt).2.dict = [("X", (none, some "C1", some "I1"))] ∧
    ((some "Y", some "C1", some "I1") : ResolutionRecord) ≠ (none, some "C1", some "I1") :=
  ⟨by decide, by decide, by decide⟩

/-- C1 (amended): if a `region_to_country` call returns a record and leaves
the cache binding the cleaned region key to exactly that record — which is
the case when it was answered from the cache, resolved directly against
the geo table at stage 2, or took a stage-5 degrade or failure path — then
a second call on the same raw string returns the identical record and
leaves the state untouched: it is answered from the cache table alone,
performing no geo-table matching, no manual-override lookup and no
remote-service request (the ghost trace of external lookups does not
grow).  (Unconditional two-call idempotence is false, see `claim1_cex`:
stage 4 caches the raw remote record under the key while returning the
geo-validated one.) -/
theorem claim1_cached_idempotent (cfg : Config) (q : String) (σ0 : St)
    (r1 : ResolutionRecord) (σ1 : St)
    (_h1 : region_to_country cfg q σ0 = (Except.ok r1, σ1))
    (h2 : dictGet σ1.dict (removeParens q) = some r1) :
    region_to_country cfg q σ1 = (Except.ok r1, σ1) := by
  simp only [region_to_country, h2]

/-- C1 witness: a region resolved at stage 2 is cached under its own key;
the second call returns the identical record from the cache with no state
change. -/
theorem claim1_witness :
    region_to_country
        ⟨1, [{ name := some "Q", altNames := [], country_name := some "C", iso_a2 := some "I" }],
         fun _ => none, fun _ => Except.ok []⟩ "Q" emptySt =
      (Except.ok (some "Q", some "C", some "I"),
       ⟨[("Q", (some "Q", some "C", some "I"))], [], [], [Ev.geo "Q"]⟩) ∧
    dictGet (⟨[("Q", (some "Q", some "C", some "I"))], [], [], [Ev.geo "Q"]⟩ : St).dict
      (removeParens "Q") = some (some "Q", some "C", some "I") ∧
    region_to_country
        ⟨1, [{ name := some "Q", altNames := [], country_name := some "C", iso_a2 := some "I" }],
         fun _ => none, fun _ => Except.ok []⟩ "Q"
        ⟨[("Q", (some "Q", some "C", some "I"))], [], [], [Ev.geo "Q"]⟩ =
      (Except.ok (some "Q", some "C", some "I"),
       ⟨[("Q", (some "Q", some "C", some "I"))], [], [], [Ev.geo "Q"]⟩) :=
  ⟨by decide, by decide,
    claim1_cached_idempotent
      ⟨1, [{ name := some "Q", altNames := [], country_name := some "C", iso_a2 := some "I" }],
       fun _ => none, fun _ => Except.ok []⟩
      "Q" emptySt (some "Q", some "C", some "I")
      ⟨[("Q", (some "Q", some "C", some "I"))], [], [], [Ev.geo "Q"]⟩
      (by decide) (by decide)⟩

/-- C1 counterexample: for `"CA"` the remote service returns the candidate
`("California", "United States", "US")`; stage 4 caches this raw remote
record under `"CA"` but returns the geo-validated record, whose country
name `"United States of America"` comes from the geo row.  The second call
is answered from the cache and returns the raw remote record: the two
calls return different records, refuting the claim that both calls return
an identical record. -/
theorem claim1_cex :
    (region_to_country
        ⟨1, [{ name := some "California", altNames := [],
               country_name := some "United States of America", iso_a2 := some "US" }],
         fun _ => none,
         fun q => if q = "CA"
          then Except.ok [{ name := "California", country_name := "United States",
                            country_code := "US" }]
          else Except.ok []⟩
        "CA" emptySt).1 =
      Except.ok (some "California", some "United States of America", some "US") ∧
    (region_to_country
        ⟨1, [{ name := some "California", altNames := [],
               country_name := some "United States of America", iso_a2 := some "US" }],
         fun _ => none,
         fun q => if q = "CA"
          then Except.ok [{ name := "California", country_name := "United States",
                            country_code := "US" }]
          else Except.ok []⟩
        "CA"
        (region_to_country
          ⟨1, [{ name := some "California", altNames := [],
                 country_name := some "United States of America", iso_a2 := some "US" }],
           fun _ => none,
           fun q => if q = "CA"
            then Except.ok [{ name := "California", country_name := "United States",
                              country_code := "US" }]
            else Except.ok []⟩
          "CA" emptySt).2).1 =
      Except.ok (some "California", some "United States", some "US") ∧
    ((some "California", some "United States of America", some "US") : ResolutionRecord) ≠
      (some "California", some "United States", some "US") :=
  ⟨by decide, by decide, by decide⟩


/-- C9: `warn_region_mismatch` is only ever tested for truthiness
(`if self.__warn_region_mismatch__:`), so running `region_to_country` at
level 2 is definitionally the same computation as at level 1: same
returned record, same cache-table and error-region updates, and same
warnings, for every input region and every initial state.  (The stricter
level-2 semantics described in the source's docstring is not implemented.) -/
theorem claim9_warn_levels (geos : List GeoRow)
    (manual : String → Option (String × String × String)) (svc : String → ApiResponse)
    (q : String) (σ : St) :
    region_to_country ⟨2, geos, manual, svc⟩ q σ =
      region_to_country ⟨1, geos, manual, svc⟩ q σ := rfl


/-! ### Claim C10: queries made of suffix words and whitespace -/

theorem isPrefixOf_append_self : ∀ (l t : List Char), l.isPrefixOf (l ++ t) = true
  | [], _ => by simp
  | c :: l2, t => by
    rw [List.cons_append, List.isPrefixOf_cons₂]
    simp [isPrefixOf_append_self l2 t]

theorem prefix_append_cases : ∀ (a p t : List Char), p.isPrefixOf (a ++ t) = true →
    p.isPrefixOf a = true ∨ a.isPrefixOf p = true
  | [], p, t, _ => Or.inr (by simp)
  | x :: a2, [], t, _ => Or.inl (by simp)
  | x :: a2, y :: p2, t, h => by
    rw [List.cons_append, List.isPrefixOf_cons₂] at h
    obtain ⟨hxy, h2⟩ := Bool.and_eq_true_iff.mp h
    have hyx : y = x := by simpa [beq_iff_eq] using hxy
    rcases prefix_append_cases a2 p2 t h2 with h3 | h3
    · exact Or.inl (by rw [List.isPrefixOf_cons₂, hxy, h3]; rfl)
    · refine Or.inr ?_
      rw [List.isPrefixOf_cons₂]
      have : (x == y) = true := by simp [beq_iff_eq, hyx]
      rw [this, h3]
      rfl

theorem replaceAllAux_step (pat : List Char) :
    ∀ f s, s.length ≤ f → replaceAllAux pat f s = replaceAllAux pat (f + 1) s := by
  intro f
  induction f with
  | zero =>
    intro s h
    have hs : s = [] := List.eq_nil_of_length_eq_zero (Nat.le_zero.mp h)
    subst hs
    rfl
  | succ f ih =>
    intro s h
    cases s with
    | nil => rfl
    | cons c cs =>
      by_cases hg : (!pat.isEmpty && pat.isPrefixOf (c :: cs)) = true
      · rw [replaceAllAux, if_pos hg]
        conv_rhs => rw [replaceAllAux, if_pos hg]
        apply ih
        have hp : 0 < pat.length := by
          cases pat with
          | nil => simp at hg
          | cons a as => simp
        simp only [List.length_drop, List.length_cons]
        simp only [List.length_cons] at h
        omega
      · rw [replaceAllAux, if_neg hg]
        conv_rhs => rw [replaceAllAux, if_neg hg]
        rw [ih cs (by simpa using h)]

theorem replaceAllAux_stable (pat : List Char) :
    ∀ (k : Nat) (s : List Char),
      replaceAllAux pat (s.length + k) s = replaceAllAux pat s.length s := by
  intro k
  induction k with
  | zero => intro s; rfl
  | succ k ih =>
    intro s
    rw [show s.length + (k + 1) = (s.length + k) + 1 from rfl,
      ← replaceAllAux_step pat (s.length + k) s (Nat.le_add_right _ _), ih s]

theorem replaceAllAux_ge (pat : List Char) (f : Nat) (s : List Char) (h : s.length ≤ f) :
    replaceAllAux pat f s = replaceAllAux pat s.length s := by
  have hf : f = s.length + (f - s.length) := by omega
  rw [hf, replaceAllAux_stable]


/-- Single whitespace characters, as one-character tokens. -/
def wsChars : List Char :=
  [' ', Char.ofNat 9, Char.ofNat 10, Char.ofNat 13, Char.ofNat 11, Char.ofNat 12]

/-- All tokens a C10-style query is built from: the suffix words and single
whitespace characters. -/
def allTokL : List (List Char) := suffixesL ++ wsChars.map (fun c => [c])

/-- Concatenation of a token list into one query string body. -/
def renderToks (ts : List String) : List Char := (ts.map String.data).flatten

/-- No occurrence of `pat` can begin strictly inside `tok` or extend past
its end: at every start position inside `tok`, neither is `pat` a prefix of
the remaining characters, nor are the remaining characters a prefix of
`pat`. -/
def noStraddle (pat tok : List Char) : Bool :=
  (List.range tok.length).all fun j =>
    !(pat.isPrefixOf (tok.drop j)) && !((tok.drop j).isPrefixOf pat)

theorem tokens_no_straddle :
    (suffixesL.all fun pat => allTokL.all fun tok => (tok == pat) || noStraddle pat tok) =
      true := by decide

theorem suffix_words_nonempty : (suffixesL.all fun pat => !pat.isEmpty) = true := by decide

theorem allTok_ws :
    (allTokL.all fun l => suffixesL.contains l || l.all pyWS) = true := by decide

theorem replaceAll_append (pat : List Char) :
    ∀ (a t : List Char),
      (∀ j, j < a.length → pat.isPrefixOf (a.drop j ++ t) = false) →
      replaceAll pat (a ++ t) = a ++ replaceAll pat t
  | [], t, _ => by simp
  | c :: a2, t, h => by
    rw [replaceAll]
    have hlen : ((c :: a2) ++ t).length = (a2 ++ t).length + 1 := by
      simp only [List.cons_append, List.length_cons]
    rw [hlen, List.cons_append, replaceAllAux, if_neg ?hguard]
    case hguard =>
      have h0 := h 0 (by simp)
      simp only [List.drop_zero, List.cons_append] at h0
      simp [h0]
    rw [show replaceAllAux pat (a2 ++ t).length (a2 ++ t) = replaceAll pat (a2 ++ t) from rfl]
    rw [replaceAll_append pat a2 t (fun j hj => by
      have h2 := h (j + 1) (by simpa using Nat.succ_lt_succ hj)
      simpa using h2)]
    rfl

theorem replaceAll_self_append (pat t : List Char) (hne : pat.isEmpty = false) :
    replaceAll pat (pat ++ t) = replaceAll pat t := by
  cases pat with
  | nil => simp [List.isEmpty] at hne
  | cons p ps =>
    rw [replaceAll]
    have hlen : ((p :: ps) ++ t).length = (ps ++ t).length + 1 := by
      simp only [List.cons_append, List.length_cons]
    have hg : (!(p :: ps).isEmpty && (p :: ps).isPrefixOf (p :: (ps ++ t))) = true := by
      rw [show p :: (ps ++ t) = (p :: ps) ++ t from rfl]
      simp [isPrefixOf_append_self]
    rw [hlen, List.cons_append, replaceAllAux, if_pos hg]
    rw [show p :: (ps ++ t) = (p :: ps) ++ t from rfl, List.drop_left]
    rw [replaceAllAux_ge (p :: ps) ((ps ++ t).length) t (by
      simp only [List.length_append]
      omega)]
    rfl


theorem renderToks_cons (t : String) (ts : List String) :
    renderToks (t :: ts) = t.data ++ renderToks ts := by
  simp [renderToks]

theorem noStraddle_spec (pat tok : List Char) (h : noStraddle pat tok = true) (j : Nat)
    (hj : j < tok.length) :
    pat.isPrefixOf (tok.drop j) = false ∧ (tok.drop j).isPrefixOf pat = false := by
  have h2 := List.all_eq_true.mp h j (List.mem_range.mpr hj)
  obtain ⟨h3, h4⟩ := Bool.and_eq_true_iff.mp h2
  exact ⟨by simpa using h3, by simpa using h4⟩

theorem replaceAll_renderToks (pat : List Char) (hpat : pat ∈ suffixesL) :
    ∀ ts : List String, (∀ t ∈ ts, t.data ∈ allTokL) →
      replaceAll pat (renderToks ts) = renderToks (ts.filter fun t => !(t.data == pat)) := by
  intro ts
  induction ts with
  | nil => intro _; rfl
  | cons t ts2 ih =>
    intro htok
    have htok2 : ∀ u ∈ ts2, u.data ∈ allTokL := fun u hu => htok u (by simp [hu])
    by_cases heq : t.data = pat
    · rw [renderToks_cons, heq,
        replaceAll_self_append pat _ (by
          have := List.all_eq_true.mp suffix_words_nonempty pat hpat
          simpa using this),
        ih htok2]
      have : (t.data == pat) = true := by simp [heq]
      simp [List.filter_cons, this]
    · have hns : noStraddle pat t.data = true := by
        have h2 := List.all_eq_true.mp tokens_no_straddle pat hpat
        have h3 := List.all_eq_true.mp h2 t.data (htok t (by simp))
        rcases Bool.or_eq_true_iff.mp h3 with h4 | h4
        · exact absurd (by simpa [beq_iff_eq] using h4) heq
        · exact h4
      rw [renderToks_cons, replaceAll_append pat t.data (renderToks ts2) (fun j hj => by
          obtain ⟨h5, h6⟩ := noStraddle_spec pat t.data hns j hj
          by_contra hcon
          have hcon2 : pat.isPrefixOf (t.data.drop j ++ renderToks ts2) = true := by
            cases hb : pat.isPrefixOf (t.data.drop j ++ renderToks ts2) with
            | true => rfl
            | false => exact absurd hb hcon
          rcases prefix_append_cases (t.data.drop j) pat (renderToks ts2) hcon2 with h7 | h7
          · rw [h5] at h7
            exact Bool.false_ne_true h7
          · rw [h6] at h7
            exact Bool.false_ne_true h7),
        ih htok2]
      have : (t.data == pat) = false := by simp [heq]
      simp [List.filter_cons, this, renderToks_cons]


theorem foldl_replaceAll_renderToks :
    ∀ (pats : List (List Char)), (∀ p ∈ pats, p ∈ suffixesL) →
      ∀ ts : List String, (∀ t ∈ ts, t.data ∈ allTokL) →
      pats.foldl (fun acc pat => replaceAll pat acc) (renderToks ts) =
        renderToks (ts.filter fun t => !(pats.contains t.data)) := by
  intro pats
  induction pats with
  | nil =>
    intro _ ts _
    simp [List.foldl_nil, List.contains]
  | cons p ps ih =>
    intro hps ts htok
    simp only [List.foldl_cons]
    rw [replaceAll_renderToks p (hps p (by simp)) ts htok]
    rw [ih (fun x hx => hps x (by simp [hx])) _ (fun t ht => htok t (List.mem_of_mem_filter ht))]
    rw [List.filter_filter]
    apply congrArg renderToks
    apply List.filter_congr
    intro x _
    simp only [List.contains_cons, Bool.not_or]
    rw [Bool.and_comm]

theorem collapseSpaces_all_ws :
    ∀ l : List Char, (∀ c ∈ l, pyWS c = true) → ∀ c ∈ collapseSpaces l, pyWS c = true
  | [], _, c, hc => by simp [collapseSpaces] at hc
  | [d], h, c, hc => by
    simp only [collapseSpaces, List.mem_singleton] at hc
    exact hc ▸ h d (by simp)
  | d :: e :: rest, h, c, hc => by
    by_cases hg : (d == ' ' && e == ' ') = true
    · rw [collapseSpaces, if_pos hg] at hc
      exact collapseSpaces_all_ws (e :: rest) (fun x hx => h x (by simp [List.mem_cons] at hx ⊢; tauto)) c hc
    · rw [collapseSpaces, if_neg hg] at hc
      rcases List.mem_cons.mp hc with hc1 | hc2
      · exact hc1 ▸ h d (by simp)
      · exact collapseSpaces_all_ws (e :: rest)
          (fun x hx => h x (by simp [List.mem_cons] at hx ⊢; tauto)) c hc2

theorem rstrip_all_ws (l : List Char) (h : ∀ c ∈ l, pyWS c = true) : rstrip l = [] := by
  rw [rstrip]
  have h2 : l.reverse.dropWhile pyWS = [] := by
    rw [List.dropWhile_eq_nil_iff]
    intro x hx
    exact h x (List.mem_reverse.mp hx)
  rw [h2]
  rfl

theorem removeSuffixL_renderToks (ts : List String) (htok : ∀ t ∈ ts, t.data ∈ allTokL) :
    removeSuffixL (renderToks ts) = [] := by
  rw [removeSuffixL, foldl_replaceAll_renderToks suffixesL (fun p hp => hp) ts htok]
  apply rstrip_all_ws
  apply collapseSpaces_all_ws
  intro c hc
  rw [renderToks] at hc
  obtain ⟨l, hl, hcl⟩ := List.mem_flatten.mp hc
  obtain ⟨t, ht, rfl⟩ := List.mem_map.mp hl
  have ht2 := List.mem_of_mem_filter ht
  have hkept : (suffixesL.contains t.data) = false := by
    have h3 := List.of_mem_filter ht
    simpa using h3
  have h4 := List.all_eq_true.mp allTok_ws t.data (htok t ht2)
  rcases Bool.or_eq_true_iff.mp h4 with h5 | h5
  · rw [hkept] at h5
    exact absurd h5 (by simp)
  · exact List.all_eq_true.mp h5 c hcl


theorem containsSub_nil_pat : ∀ hay : List Char, containsSub hay [] = true
  | [] => by simp [containsSub]
  | c :: cs => by simp [containsSub]

theorem any_cols_empty_query (q : String) (hq : q.data = []) :
    ∀ cols : List (Option String),
      (cols.any fun c =>
        match c with
        | some v => containsSub v.data q.data
        | none => false) = cols.any (fun c => c.isSome)
  | [] => rfl
  | c :: cs => by
    rw [List.any_cons, List.any_cons, any_cols_empty_query q hq cs]
    cases c with
    | none => rfl
    | some v => simp [hq, containsSub_nil_pat]

theorem rowContainsQ_empty (q : String) (hq : q.data = []) (r : GeoRow) :
    rowContainsQ q r = (nameCols r).any (fun c => c.isSome) := by
  rw [rowContainsQ]
  exact any_cols_empty_query q hq (nameCols r)

theorem filter_eq_nil_of_false {α : Type} (p : α → Bool) :
    ∀ l : List α, (∀ x ∈ l, p x = false) → l.filter p = []
  | [], _ => rfl
  | x :: xs, h => by
    simp only [List.filter_cons, h x (by simp)]
    exact filter_eq_nil_of_false p xs (fun y hy => h y (by simp [hy]))

/-- C10 (amended): on a query built entirely from administrative suffix
words and whitespace, suffix stripping yields the empty string, and the
empty string is contained in every non-null name column, so every geo row
with at least one non-null name column matches.  The matcher therefore
reports not-found exactly when no row has a non-null name column — on a
table of rows with all-null name columns it still reports not-found, see
`claim10_cex` — and otherwise (here stated for queries no name column is
exactly equal to, so the ambiguity narrowing keeps the whole matched set)
the first row having a non-null name column supplies the result fields. -/
theorem claim10_suffix_only_queries (ts : List String) (geos : List GeoRow) (σ : St)
    (region : String)
    (hr : region.data = renderToks ts)
    (htok : (ts.all fun t => decide (t.data ∈ allTokL)) = true)
    (hexact : (geos.all fun r => !(rowExactQ region r)) = true) :
    removeSuffix region = "" ∧
    (region_to_country_from_geo geos region σ).1 =
      ((geos.filter fun r => (nameCols r).any fun c => c.isSome).head?).map
        (fun row => ((row.name, row.country_name, row.iso_a2) : ResolutionRecord)) := by
  have htok2 : ∀ t ∈ ts, t.data ∈ allTokL := fun t ht =>
    of_decide_eq_true (List.all_eq_true.mp htok t ht)
  have h0 : removeSuffix region = "" := by
    obtain ⟨l⟩ := region
    rw [removeSuffix_mk]
    rw [data_mk] at hr
    rw [hr, removeSuffixL_renderToks ts htok2]
  refine ⟨h0, ?_⟩
  have hq : (removeSuffix region).data = [] := by
    rw [h0]
  have hfe : geos.filter (fun r => rowContainsQ (removeSuffix region) r) =
      geos.filter (fun r => (nameCols r).any fun c => c.isSome) := by
    apply List.filter_congr
    intro r _
    exact rowContainsQ_empty (removeSuffix region) hq r
  rcases hm : geos.filter (fun r => (nameCols r).any fun c => c.isSome) with _ | ⟨m, ms⟩
  · rw [geo_none geos region σ (by rw [hfe, hm])]
    rfl
  · rw [geo_cons geos region σ m ms (by rw [hfe, hm])]
    have hsub : ∀ x ∈ m :: ms, x ∈ geos := by
      intro x hx
      rw [← hm] at hx
      exact List.mem_of_mem_filter hx
    have hex : (m :: ms).filter (fun r => rowExactQ region r) = [] := by
      apply filter_eq_nil_of_false
      intro x hx
      have h5 := List.all_eq_true.mp hexact x (hsub x hx)
      simpa using h5
    rw [hex]
    simp

/-- C10 witness: the query `"Zone Province"`, built from two suffix words
and a space, strips to the empty string, and against a one-row table with
a non-null name column the matcher returns that row's fields. -/
theorem claim10_witness :
    ("Zone Province" : String).data = renderToks ["Zone", " ", "Province"] ∧
    ((["Zone", " ", "Province"] : List String).all fun t => decide (t.data ∈ allTokL)) = true ∧
    (([{ name := some "Ab", altNames := [], country_name := some "C", iso_a2 := some "I" }] :
        List GeoRow).all fun r => !(rowExactQ "Zone Province" r)) = true ∧
    (removeSuffix "Zone Province" = "" ∧
     (region_to_country_from_geo
        [{ name := some "Ab", altNames := [], country_name := some "C", iso_a2 := some "I" }]
        "Zone Province" emptySt).1 =
       ((([{ name := some "Ab", altNames := [], country_name := some "C", iso_a2 := some "I" }] :
           List GeoRow).filter fun r => (nameCols r).any fun c => c.isSome).head?).map
         (fun row => ((row.name, row.country_name, row.iso_a2) : ResolutionRecord))) :=
  ⟨by decide, by decide, by decide,
    claim10_suffix_only_queries ["Zone", " ", "Province"]
      [{ name := some "Ab", altNames := [], country_name := some "C", iso_a2 := some "I" }]
      emptySt "Zone Province" (by decide) (by decide) (by decide)⟩

/-- C10 counterexample: `"Zone"` strips to the empty string, but on the
non-empty geo table whose single row has a null name column the matcher
reports not-found rather than returning the first row's fields — the
empty string is contained in every non-NULL name column only, so a
non-empty table does not guarantee a match. -/
theorem claim10_cex :
    removeSuffix "Zone" = "" ∧
    ([({ name := none, altNames := [], country_name := some "C", iso_a2 := some "I" } :
        GeoRow)] ≠ ([] : List GeoRow)) ∧
    (region_to_country_from_geo
      [{ name := none, altNames := [], country_name := some "C", iso_a2 := some "I" }]
      "Zone" emptySt).1 = none :=
  ⟨by decide, by decide, by decide⟩

end RegionsToCountries
